import Mathlib

/-!
Shallow embedding of the custom-rule matching engine and the outline
injection pipeline of the Iconize plugin, together with proofs of the
specified properties.

Source files embedded:
* `lib/custom-rule.ts` (rule matching, pattern cache, add / remove);
* the outline internal-plugin injector (mutation watcher, label scan).
-/

namespace Iconize

/-! ## JS string primitives used by the source -/

/-- Model of JS `String.prototype.includes` on character lists:
`charsInclude s sub = true` iff `sub` occurs contiguously in `s`. -/
def charsInclude (sub : List Char) : List Char → Bool
  | [] => sub.isEmpty
  | c :: t => sub.isPrefixOf (c :: t) || charsInclude sub t

/-- JS `toMatch.includes(rule.rule)` on Lean strings. -/
def strIncludes (s sub : String) : Bool :=
  charsInclude sub.data s.data

/-- JS `String.prototype.split` with a one-character separator, on
character lists.  Splitting never yields an empty array: the empty
string splits to `[[]]`. -/
def splitChars (sep : Char) : List Char → List (List Char)
  | [] => [[]]
  | c :: cs =>
    if c = sep then [] :: splitChars sep cs
    else
      match splitChars sep cs with
      | [] => [[c]]
      | g :: gs => (c :: g) :: gs

/-- JS `path.split('/').pop()`: the final segment of a path.  `split`
always yields a non-empty array, so `pop` always yields a string. -/
def lastSegment (path : String) : String :=
  String.mk ((splitChars '/' path.data).getLastD [])

/-! ## Data model: `CustomRule` (settings/data.ts) -/

/-- The `for` field of a custom rule. -/
inductive RuleFor where
  | everything
  | files
  | folders
deriving DecidableEq, Repr

/-- A custom rule: `{ icon, color?, rule, for, useFilePath, order }`.
The pattern-source field `rule` is embedded as `rulePat` (Lean cannot
reuse the enclosing type's name for a field reference-free). -/
structure CustomRule where
  icon : String
  color : Option String
  rulePat : String
  forType : RuleFor
  useFilePath : Bool
  order : Int
deriving DecidableEq, Repr

/-- `CustomRuleFileType = 'file' | 'folder'`. -/
inductive CustomRuleFileType where
  | file
  | folder
deriving DecidableEq, Repr

/-- `doesMatchFileType(rule, fileType)`: the rule's `for` accepts the
file type. -/
def doesMatchFileType (rule : CustomRule) (fileType : CustomRuleFileType) : Bool :=
  rule.forType = RuleFor.everything ||
    (rule.forType = RuleFor.files && fileType = CustomRuleFileType.file) ||
    (rule.forType = RuleFor.folders && fileType = CustomRuleFileType.folder)

/-! ## Pattern cache and `doesMatchPath`

`new RegExp(src)` either compiles to a matcher or throws; we embed the
ambient regex engine as a function `compile : String → Option Matcher`
(`none` = compilation throws).  The cache `regexCache` maps a rule
string to `some matcher` (compiled) or `none` (fallback marker), i.e.
entries are `Option Matcher`; the cache is an association list. -/

/-- A compiled matcher: `regex.test` as a predicate on the subject. -/
abbrev Matcher := String → Bool

/-- The `regexCache : Map<string, RegExp | null>`. -/
abbrev RegexCache := List (String × Option Matcher)

/-- The comparison subject: full path when `useFilePath`, else the
final path segment (`path.split('/').pop()`). -/
def toMatchOf (rule : CustomRule) (path : String) : String :=
  if rule.useFilePath then path else lastSegment path

/-- Result of one `doesMatchPath` call: the boolean, the cache after
the call, and how many times the compile step ran during the call. -/
structure MatchOut where
  result : Bool
  cache : RegexCache
  compiles : Nat
deriving Inhabited

/-- `doesMatchPath(rule, path)` over an explicit cache state.  Mirrors
the source: populate the cache on a miss (`new RegExp` or the `null`
fallback marker), then test the cached matcher, or fall back to
substring containment of the raw rule string. -/
def doesMatchPath (compile : String → Option Matcher) (cache : RegexCache)
    (rule : CustomRule) (path : String) : MatchOut :=
  let toMatch := toMatchOf rule path
  match cache.lookup rule.rulePat with
  | some (some regex) => ⟨regex toMatch, cache, 0⟩
  | some none => ⟨strIncludes toMatch rule.rulePat, cache, 0⟩
  | none =>
    match compile rule.rulePat with
    | some regex => ⟨regex toMatch, (rule.rulePat, some regex) :: cache, 1⟩
    | none => ⟨strIncludes toMatch rule.rulePat, (rule.rulePat, none) :: cache, 1⟩

/-- Pure meaning of a path test once the cache agrees with `compile`:
test the compiled matcher or fall back to substring containment. -/
def matcherTest (compile : String → Option Matcher) (pat subject : String) : Bool :=
  match compile pat with
  | some regex => regex subject
  | none => strIncludes subject pat

/-- The cache is consistent with the ambient compile function: every
entry is exactly what compiling its key yields. -/
def CacheWF (compile : String → Option Matcher) (cache : RegexCache) : Prop :=
  ∀ pat e, cache.lookup pat = some e → e = compile pat

/-! ## `isApplicable`

The vault lookup `plugin.app.vault.getAbstractFileByPath` is embedded
as a function `vault : String → Option CustomRuleFileType`: `none` is a
failed lookup, otherwise the entry's type (the source derives the type
by `abstractFile instanceof TFolder ? 'folder' : 'file'`). -/

/-- `isApplicable(plugin, rule, filePath)`: entry exists, file type
matches, and the path matches (the last step may populate the pattern
cache, so the cache is threaded through). -/
def isApplicable (vault : String → Option CustomRuleFileType)
    (compile : String → Option Matcher) (cache : RegexCache)
    (rule : CustomRule) (filePath : String) : Bool × RegexCache :=
  match vault filePath with
  | none => (false, cache)
  | some fileType =>
    if doesMatchFileType rule fileType then
      let o := doesMatchPath compile cache rule filePath
      (o.result, o.cache)
    else (false, cache)

/-! ## Icon Assignment Cache and `add` -/

/-- An `IconCache` entry: `{ iconNameWithPrefix, inCustomRule }`. -/
structure IconCacheEntry where
  iconNameWithPrefix : String
  inCustomRule : Bool
deriving DecidableEq, Repr

/-- The Icon Assignment Cache, path-keyed.  `Map.set` overwrite
semantics: insertion shadows any earlier binding of the same path. -/
abbrev IconCacheMap := List (String × IconCacheEntry)

/-- `IconCache.set(path, entry)` (overwrite semantics). -/
def iconCacheSet (m : IconCacheMap) (path : String) (e : IconCacheEntry) : IconCacheMap :=
  (path, e) :: m.filter (fun kv => kv.1 ≠ path)

/-- `IconCache.invalidate(path)`: remove the entry; invalidating an
absent path is a no-op. -/
def iconCacheInvalidate (m : IconCacheMap) (path : String) : IconCacheMap :=
  m.filter (fun kv => kv.1 ≠ path)

/-- The render container passed to `add`; `hasIconNode` is what
`dom.doesElementHasIconNode` reads off the element. -/
structure Container where
  hasIconNode : Bool
deriving DecidableEq, Repr

/-- `dom.doesElementHasIconNode(container)`. -/
def doesElementHasIconNode (c : Container) : Bool := c.hasIconNode

/-- Modelled from the spec: `dom.createIconNode` (util/dom, not in the
provided sources) "requests external rendering of the icon into the
target container" — afterwards the container visually carries an icon
node. -/
def createIconNode (c : Option Container) : Option Container :=
  c.map (fun _ => ⟨true⟩)

/-- Plugin-side state visible to `add`: the Icon Assignment Cache, the
pattern cache, and the vault. -/
structure PluginState where
  iconCache : IconCacheMap
  regexCache : RegexCache
  vault : String → Option CustomRuleFileType

/-- Modelled from the spec: `plugin.getIconNameFromPath` (main.ts, not
in the provided sources) resolves the icon currently assigned to a
path; per the spec the Icon Assignment Cache "is the single source of
truth queried before any rule is allowed to assign an icon" and the
lookup "must be kept consistent" with it, so it reads the cache. -/
def getIconNameFromPath (st : PluginState) (path : String) : Option String :=
  (st.iconCache.lookup path).map (fun e => e.iconNameWithPrefix)

/-- `add(plugin, rule, file, container?)`: short-circuit when the
container already carries an icon node or the path already resolves to
an icon; otherwise on `isApplicable` write the cache entry, render the
icon node, and return `true`. -/
def add (compile : String → Option Matcher) (st : PluginState)
    (rule : CustomRule) (filePath : String) (container : Option Container) :
    Bool × PluginState × Option Container :=
  if (container.map doesElementHasIconNode).getD false then
    (false, st, container)
  else
    match getIconNameFromPath st filePath with
    | some _ => (false, st, container)
    | none =>
      let (doesMatch, cache) := isApplicable st.vault compile st.regexCache rule filePath
      let st1 : PluginState := { st with regexCache := cache }
      if doesMatch then
        (true,
         { st1 with iconCache := iconCacheSet st1.iconCache filePath ⟨rule.icon, true⟩ },
         createIconNode container)
      else
        (false, st1, container)

/-! ## `removeFromAllFiles`

Rendered icon nodes live in the document; `querySelectorAll` with the
icon-attribute selector picks those whose tagged icon equals
`rule.icon`.  Each node's parent element (optional) carries the
optional `data-path` attribute.  `getAttribute` yields `null` when the
attribute is absent; the source's `if (!dataPath)` also rejects the
empty string (falsy). -/

/-- A parent element as seen by removal: its `data-path` attribute. -/
structure ParentEl where
  dataPath : Option String
deriving DecidableEq, Repr

/-- A rendered icon node: its tagged icon attribute and its parent. -/
structure IconNode where
  iconAttr : String
  parent : Option ParentEl
deriving DecidableEq, Repr

/-- Whether `removeFromAllFiles(rule)` removes a given node: selected
by the icon attribute, parent present, non-empty `data-path`, vault
entry present, and the rule still matches path and type. -/
def shouldRemove (vault : String → Option CustomRuleFileType)
    (compile : String → Option Matcher) (rule : CustomRule) (n : IconNode) : Bool :=
  n.iconAttr = rule.icon &&
    match n.parent with
    | none => false
    | some p =>
      match p.dataPath with
      | none => false
      | some dp =>
        !dp.isEmpty &&
          match vault dp with
          | none => false
          | some fileType =>
            matcherTest compile rule.rulePat (toMatchOf rule dp) &&
              doesMatchFileType rule fileType

/-- One loop iteration of `removeFromAllFiles` on a node already
selected by the icon attribute: returns whether the icon is removed
from the parent, the `data-path` invalidated (if any), and the cache
after the call.  Mirrors the source's early `continue`s. -/
def removeStep (vault : String → Option CustomRuleFileType)
    (compile : String → Option Matcher) (rule : CustomRule)
    (cache : RegexCache) (n : IconNode) : Bool × Option String × RegexCache :=
  match n.parent with
  | none => (false, none, cache)
  | some p =>
    match p.dataPath with
    | none => (false, none, cache)
    | some dp =>
      if dp.isEmpty then (false, none, cache)
      else
        match vault dp with
        | none => (false, none, cache)
        | some fileType =>
          let o := doesMatchPath compile cache rule dp
          if o.result && doesMatchFileType rule fileType then
            (true, some dp, o.cache)
          else
            (false, none, o.cache)

/-- `removeFromAllFiles(plugin, rule)` over the document's icon nodes:
filter by the icon-attribute selector, then run the loop, threading the
pattern cache and the Icon Assignment Cache (`dom.removeIconInNode` and
`IconCache.invalidate` per removed node).  Returns, per document node,
whether its icon was removed, plus both caches. -/
def removeFromAllFiles (vault : String → Option CustomRuleFileType)
    (compile : String → Option Matcher) (rule : CustomRule)
    (cache : RegexCache) (icons : IconCacheMap) :
    List IconNode → List Bool × RegexCache × IconCacheMap
  | [] => ([], cache, icons)
  | n :: ns =>
    if n.iconAttr = rule.icon then
      let (removed, invalidated, cache1) := removeStep vault compile rule cache n
      let icons1 := match invalidated with
        | some dp => iconCacheInvalidate icons dp
        | none => icons
      let (flags, cache2, icons2) :=
        removeFromAllFiles vault compile rule cache1 icons1 ns
      (removed :: flags, cache2, icons2)
    else
      let (flags, cache2, icons2) :=
        removeFromAllFiles vault compile rule cache icons ns
      (false :: flags, cache2, icons2)

/-- The owning path of a rendered icon node: the parent's `data-path`
attribute, when both exist. -/
def nodePath (n : IconNode) : Option String :=
  n.parent.bind (fun p => p.dataPath)

/-- The owning paths of the nodes `removeFromAllFiles` removes, in
document order. -/
def removedPaths (vault : String → Option CustomRuleFileType)
    (compile : String → Option Matcher) (rule : CustomRule)
    (nodes : List IconNode) : List String :=
  (nodes.filter (shouldRemove vault compile rule)).filterMap nodePath

/-! ## `getSortedRules`

`rules.sort((a, b) => a.order - b.order)` is JS in-place stable sort:
it reorders the settings array itself and returns that same array.  The
ES2019 stable sort is embedded as an insertion sort that keeps ties in
original order. -/

/-- Stable insertion of a rule into an already-sorted list: the new
element goes after every element whose `order` is not greater. -/
def insertRule (r : CustomRule) : List CustomRule → List CustomRule
  | [] => [r]
  | x :: xs => if r.order < x.order then r :: x :: xs else x :: insertRule r xs

/-- JS `Array.prototype.sort` with comparator `a.order - b.order`:
stable, ascending by `order`. -/
def jsSortRules (rules : List CustomRule) : List CustomRule :=
  rules.foldl (fun acc r => insertRule r acc) []

/-- The plugin settings relevant here: the rules array. -/
structure Settings where
  rules : List CustomRule
deriving DecidableEq, Repr

/-- `getSortedRules(plugin)`: returns the sorted rules; since JS `sort`
mutates in place, the settings' underlying array now holds the sorted
order as well. -/
def getSortedRules (s : Settings) : List CustomRule × Settings :=
  let sorted := jsSortRules s.rules
  (sorted, { s with rules := sorted })

/-! ## Outline label scan (`processTreeItemInner`)

The label text is a character list.  The shortcode matcher yields the
matches of the shortcode pattern against the original label text, each
as its matched text and start index (`matchAll`, sorted ascending by
index).  The icon registry `icon.getIconByName` is embedded as a
predicate `getIcon` on the bare icon name (whether an icon object is
found). -/

/-- One `matchAll` record: `{ text: arr[0], index: arr.index }`. -/
structure ShortcodeMatch where
  text : List Char
  index : Nat
deriving DecidableEq, Repr

/-- `shortcode.slice(iconIdentifierLength, shortcode.length -
iconIdentifierLength)`: the bare icon name between the delimiters. -/
def shortIconName (idLen : Nat) (sc : List Char) : List Char :=
  (sc.take (sc.length - idLen)).drop idLen

/-- Whether the match's icon name resolves in the icon registry. -/
def foundIcon (getIcon : List Char → Bool) (idLen : Nat) (m : ShortcodeMatch) : Bool :=
  getIcon (shortIconName idLen m.text)

/-- `text.substring(0, x) + text.substring(y)`: remove the span
`[x, y)` from `s` (JS `substring` clamps out-of-range indices, as
`take`/`drop` do). -/
def spliceChars (s : List Char) (x y : Nat) : List Char :=
  s.take x ++ s.drop y

/-- The index-tracking loop of `processTreeItemInner`: matches are
walked in ascending order; a found icon splices the span at the
original index shifted down by `trimmedLength` and accumulates the
removed length; a match whose icon is not found changes nothing. -/
def processTreeItemScan (getIcon : List Char → Bool) (idLen : Nat) :
    List Char → Nat → List ShortcodeMatch → List Char
  | text, _, [] => text
  | text, trimmedLength, code :: rest =>
    if foundIcon getIcon idLen code then
      processTreeItemScan getIcon idLen
        (spliceChars text (code.index - trimmedLength)
          (code.index + code.text.length - trimmedLength))
        (trimmedLength + code.text.length) rest
    else
      processTreeItemScan getIcon idLen text trimmedLength rest

/-- Reference definition following the spec's words: every found
token is removed at the span it occupies in the ORIGINAL label text
("positions are computed against the original label text"); removing
right-to-left, no offset adjustment is needed. -/
def specRemoveMatchedTokens (found : ShortcodeMatch → Bool) (text : List Char)
    (ms : List ShortcodeMatch) : List Char :=
  ms.foldr
    (fun m t => if found m then spliceChars t m.index (m.index + m.text.length) else t)
    text

/-- `specRemoveMatchedTokens` generalized by the running trim offset,
for the induction. -/
def specRemoveFrom (found : ShortcodeMatch → Bool) (trimmed : Nat) (text : List Char)
    (ms : List ShortcodeMatch) : List Char :=
  ms.foldr
    (fun m t =>
      if found m then
        spliceChars t (m.index - trimmed) (m.index + m.text.length - trimmed)
      else t)
    text

/-! ## Outline injection pipeline state machine

The injector's mutable state: `registered`, the `observer` reference,
and which observers are actually attached to the region (`active`;
attaching appends, `disconnect` removes).  Events are delivered to the
single-threaded loop in order.  `register()` runs synchronously only
up to subscribing a one-shot `allIconsLoaded` handler (`pending`
counts the queued handlers); the initial scan and the observer attach
run when that signal fires, one per queued handler. -/

/-- A node of a mutation record's `addedNodes`, abstracted to what the
callback reads: whether it is an `HTMLElement`, whether it itself
carries the tree-item class, its own inner label (if any), and the
inner labels of its qualifying descendants. -/
structure AddedNode where
  isHTMLElement : Bool
  isTreeItem : Bool
  selfInner : Option Nat
  descInners : List Nat
deriving DecidableEq, Repr

/-- A `MutationRecord`, abstracted to `type == 'childList'` and the
added nodes. -/
structure MutationRec where
  isChildList : Bool
  added : List AddedNode
deriving DecidableEq, Repr

/-- The inner labels one added node contributes: non-elements are
skipped; a tree item contributes its own inner; otherwise all
qualifying descendants contribute theirs. -/
def nodeInners (n : AddedNode) : List Nat :=
  if !n.isHTMLElement then []
  else if n.isTreeItem then n.selfInner.toList
  else n.descInners

/-- The inner labels one mutation record contributes (records that are
not `childList` or add nothing are skipped). -/
def mutationInners (m : MutationRec) : List Nat :=
  if m.isChildList && !m.added.isEmpty then (m.added.map nodeInners).flatten else []

/-- The injector's state: plugin enablement, the `registered` flag,
the `observer` field, the observers attached to the region, the number
of queued one-shot `allIconsLoaded` handlers, and a fresh-id counter
for observers. -/
structure OutlineState where
  enabled : Bool
  registered : Bool
  observer : Option Nat
  active : List Nat
  pending : Nat
  nextId : Nat
deriving DecidableEq, Repr

/-- `this.observer?.disconnect(); this.observer = null`. -/
def disconnectObserver (st : OutlineState) : OutlineState :=
  match st.observer with
  | none => { st with observer := none }
  | some i => { st with observer := none, active := st.active.erase i }

/-- The mutation callback: when the feature has been disabled it
disconnects the observer and discards the whole batch; otherwise it
processes the added nodes of the batch.  Returns the new state and the
processed inner labels. -/
def outlineCallback (st : OutlineState) (muts : List MutationRec) :
    OutlineState × List Nat :=
  if !st.enabled then (disconnectObserver st, [])
  else (st, (muts.map mutationInners).flatten)

/-- The synchronous body of `register()`: skipped when disabled; an
existing observer of a previous registration is disconnected first
(the guard requires `this.registered && this.observer`); then
`registered` is set and `setOutlineIcons` subscribes one one-shot
`allIconsLoaded` handler — the initial scan and the observer attach
are deferred to that signal. -/
def registerStep (st : OutlineState) : OutlineState :=
  if !st.enabled then st
  else
    let st1 :=
      match st.observer with
      | some i =>
        if st.registered then { st with active := st.active.erase i, observer := none }
        else st
      | none => st
    { st1 with registered := true, pending := st1.pending + 1 }

/-- One queued `allIconsLoaded` handler: scan the present tree items,
create a new `MutationObserver`, overwrite `this.observer` with it and
attach it to the region.  The previously referenced observer, if any,
is not disconnected here. -/
def runHandler (st : OutlineState) : OutlineState :=
  { st with
      observer := some st.nextId
      active := st.active ++ [st.nextId]
      nextId := st.nextId + 1 }

/-- Run a number of queued handlers in subscription order. -/
def runHandlers : Nat → OutlineState → OutlineState
  | 0, st => st
  | n + 1, st => runHandlers n (runHandler st)

/-- The `allIconsLoaded` emission: every queued one-shot handler runs
once and is dequeued. -/
def fireAllIconsLoaded (st : OutlineState) : OutlineState :=
  { runHandlers st.pending st with pending := 0 }

/-- Events delivered to the injector.  `allIconsLoaded` carries the
inner labels of the tree items present at scan time. -/
inductive OutlineEv where
  | register
  | allIconsLoaded (inners : List Nat)
  | mutate (muts : List MutationRec)
  | setEnabled (b : Bool)
deriving DecidableEq, Repr

/-- One event step.  A mutation batch reaches the callback only while
an observer is attached to the region; the signal's initial scan runs
once per queued handler. -/
def stepEv (st : OutlineState) (ev : OutlineEv) : OutlineState × List Nat :=
  match ev with
  | .register => (registerStep st, [])
  | .allIconsLoaded inners =>
    (fireAllIconsLoaded st, (List.replicate st.pending inners).flatten)
  | .mutate muts => if st.active.isEmpty then (st, []) else outlineCallback st muts
  | .setEnabled b => ({ st with enabled := b }, [])

/-- Run a sequence of events. -/
def runEvents (st : OutlineState) : List OutlineEv → OutlineState
  | [] => st
  | ev :: evs => runEvents (stepEv st ev).1 evs

/-- The injector's initial state: not registered, no observer, no
queued handler. -/
def initialOutline (enabled : Bool) : OutlineState :=
  ⟨enabled, false, none, [], 0, 0⟩

/-- The single-watcher invariant together with the facts that carry it:
without an observer reference nothing is attached, and the attached
observer (if any) is exactly the referenced one, under a completed
registration. -/
def OutlineInv (st : OutlineState) : Prop :=
  (st.observer = none → st.active = []) ∧
    (∀ i, st.observer = some i →
      (st.active = [] ∨ st.active = [i]) ∧ st.registered = true)

/-! ## `getNavItemSize`

`getComputedStyle(...).getPropertyValue(prop)` returns a string — the
empty string when the property is absent, never `null`.  JS numbers are
embedded as `JSNum` (`nan` or a rational), `parseFloat` by its
standard semantics on an optional sign, integer digits and fraction
digits (`NaN` when no digits are consumed). -/

/-- A JS number as produced by `parseFloat`, in exact decimal form:
`num m k` denotes the value `m / 10 ^ k`. -/
inductive JSNum where
  | nan
  | num (mantissa : Int) (scale : Nat)
deriving DecidableEq, Repr

/-- Decimal digits to a natural number. -/
def digitsToNat (ds : List Char) : Nat :=
  ds.foldl (fun acc c => 10 * acc + (c.toNat - '0'.toNat)) 0

/-- JS `parseFloat`: skip leading spaces, optional sign, integer
digits, optional `.` and fraction digits; `NaN` when neither digit
group is non-empty. -/
def jsParseFloat (s : String) : JSNum :=
  let cs := s.data.dropWhile (fun c => c = ' ')
  let signAndRest : Int × List Char :=
    match cs with
    | '-' :: r => (-1, r)
    | '+' :: r => (1, r)
    | _ => (1, cs)
  let intDigits := signAndRest.2.takeWhile Char.isDigit
  let rest := signAndRest.2.dropWhile Char.isDigit
  let fracDigits :=
    match rest with
    | '.' :: r => r.takeWhile Char.isDigit
    | _ => []
  if intDigits.isEmpty && fracDigits.isEmpty then JSNum.nan
  else
    JSNum.num
      (signAndRest.1 *
        ((digitsToNat intDigits : Int) * (10 : Int) ^ fracDigits.length +
          (digitsToNat fracDigits : Int)))
      fracDigits.length

/-- `getComputedStyle(document.body)` as a property map; CSSOM
`getPropertyValue` yields the empty string for an absent property. -/
def getPropertyValue (style : String → Option String) (prop : String) : String :=
  (style prop).getD ""

/-- The JS nullish-coalescing operator `??` on an optional string. -/
def nullishCoalesce (x : Option String) (dflt : String) : String :=
  x.getD dflt

/-- `getNavItemSize()` with its memo field `cachedNavItemSize`:
compute `parseFloat(getPropertyValue('--nav-item-size') ?? '16')` on a
cache miss and memoize; return the memo on a hit. -/
def getNavItemSize (style : String → Option String) (cached : Option JSNum) :
    JSNum × Option JSNum :=
  match cached with
  | some v => (v, some v)
  | none =>
    let v := jsParseFloat
      (nullishCoalesce (some (getPropertyValue style "--nav-item-size")) "16")
    (v, some v)

/-! ## Compile-count instrumentation over call sequences -/

/-- Run a sequence of `doesMatchPath` calls (each a rule and a path),
counting how many of them ran the compile step for the pattern string
`pat`. -/
def runMatchesCount (compile : String → Option Matcher) (pat : String) :
    RegexCache → List (CustomRule × String) → Nat
  | _, [] => 0
  | cache, (r, p) :: rest =>
    (if r.rulePat = pat then (doesMatchPath compile cache r p).compiles else 0) +
      runMatchesCount compile pat (doesMatchPath compile cache r p).cache rest

/-! # Theorems -/

/-! ## Pattern cache basics -/

theorem cacheWF_nil (compile : String → Option Matcher) : CacheWF compile [] := by
  intro pat e h
  simp [List.lookup] at h

theorem cacheWF_cons {compile : String → Option Matcher} {cache : RegexCache}
    (hwf : CacheWF compile cache) (pat : String) :
    CacheWF compile ((pat, compile pat) :: cache) := by
  intro q e h
  by_cases hq : q = pat
  · subst hq
    simp [List.lookup] at h
    exact h.symm
  · have hqb : (q == pat) = false := by simp [hq]
    simp [List.lookup, hqb] at h
    exact hwf q e h

/-- On a consistent cache, `doesMatchPath` returns the pure matcher
test, keeps the cache consistent, and preserves present entries. -/
theorem doesMatchPath_spec (compile : String → Option Matcher)
    (cache : RegexCache) (rule : CustomRule) (path : String)
    (hwf : CacheWF compile cache) :
    (doesMatchPath compile cache rule path).result =
      matcherTest compile rule.rulePat (toMatchOf rule path) ∧
    CacheWF compile (doesMatchPath compile cache rule path).cache ∧
    ((doesMatchPath compile cache rule path).cache.lookup rule.rulePat).isSome := by
  unfold doesMatchPath matcherTest
  cases hc : cache.lookup rule.rulePat with
  | some e =>
    have he := hwf rule.rulePat e hc
    cases e with
    | some regex => simp [hc, ← he, hwf]
    | none => simp [hc, ← he, hwf]
  | none =>
    cases hcomp : compile rule.rulePat with
    | some regex =>
      refine ⟨by simp [hc, hcomp], ?_, by simp [hc, hcomp, List.lookup]⟩
      simp only [hc, hcomp]
      have := cacheWF_cons hwf rule.rulePat
      rw [hcomp] at this
      exact this
    | none =>
      refine ⟨by simp [hc, hcomp], ?_, by simp [hc, hcomp, List.lookup]⟩
      simp only [hc, hcomp]
      have := cacheWF_cons hwf rule.rulePat
      rw [hcomp] at this
      exact this

/-- A cache hit performs no compile and leaves the cache untouched. -/
theorem doesMatchPath_hit (compile : String → Option Matcher)
    (cache : RegexCache) (r : CustomRule) (p : String)
    (h : (cache.lookup r.rulePat).isSome) :
    (doesMatchPath compile cache r p).compiles = 0 ∧
    (doesMatchPath compile cache r p).cache = cache := by
  unfold doesMatchPath
  rcases Option.isSome_iff_exists.mp h with ⟨e, he⟩
  cases e <;> simp [he]

/-- A cache miss performs exactly one compile. -/
theorem doesMatchPath_miss (compile : String → Option Matcher)
    (cache : RegexCache) (r : CustomRule) (p : String)
    (h : cache.lookup r.rulePat = none) :
    (doesMatchPath compile cache r p).compiles = 1 := by
  unfold doesMatchPath
  cases hcomp : compile r.rulePat <;> simp [h, hcomp]

/-- After any call, the rule's own pattern string is cached. -/
theorem doesMatchPath_lookup_self (compile : String → Option Matcher)
    (cache : RegexCache) (r : CustomRule) (p : String) :
    (((doesMatchPath compile cache r p).cache).lookup r.rulePat).isSome := by
  unfold doesMatchPath
  cases hc : cache.lookup r.rulePat with
  | some e => cases e <;> simp [hc]
  | none => cases hcomp : compile r.rulePat <;> simp [hc, hcomp, List.lookup]

/-- Any call preserves present cache entries. -/
theorem doesMatchPath_preserves_lookup (compile : String → Option Matcher)
    (cache : RegexCache) (r : CustomRule) (p q : String)
    (h : (cache.lookup q).isSome) :
    (((doesMatchPath compile cache r p).cache).lookup q).isSome := by
  unfold doesMatchPath
  cases hc : cache.lookup r.rulePat with
  | some e => cases e <;> simp only [hc] <;> exact h
  | none =>
    cases hcomp : compile r.rulePat with
    | some regex =>
      simp only [hc, hcomp, List.lookup]
      cases hqb : q == r.rulePat <;> simp [h]
    | none =>
      simp only [hc, hcomp, List.lookup]
      cases hqb : q == r.rulePat <;> simp [h]

/-- A sequence of calls starting from a cache that already holds `pat`
never compiles `pat` again. -/
theorem runMatchesCount_zero_of_cached (compile : String → Option Matcher)
    (pat : String) (calls : List (CustomRule × String)) :
    ∀ cache : RegexCache, (cache.lookup pat).isSome →
      runMatchesCount compile pat cache calls = 0 := by
  induction calls with
  | nil => intro cache _; rfl
  | cons call rest ih =>
    intro cache h
    obtain ⟨r, p⟩ := call
    unfold runMatchesCount
    have hpres := doesMatchPath_preserves_lookup compile cache r p pat h
    by_cases hr : r.rulePat = pat
    · have hz := (doesMatchPath_hit compile cache r p (hr ▸ h)).1
      simp [hr, hz, ih _ hpres]
    · simp [hr, ih _ hpres]

/-! ## C4 -/

/-- C4: for a rule whose pattern string does not compile, no call of
`doesMatchPath` raises: the call returns the substring-containment test
of the raw rule string inside the comparison subject, the cache
afterwards holds the fallback marker (`null`) for that pattern string
and stays consistent, and every later call with the same pattern string
again degrades to the substring test. -/
theorem invalid_pattern_falls_back_to_substring
    (compile : String → Option Matcher) (cache : RegexCache)
    (rule : CustomRule) (path : String)
    (hbad : compile rule.rulePat = none) (hwf : CacheWF compile cache) :
    (doesMatchPath compile cache rule path).result =
      strIncludes (toMatchOf rule path) rule.rulePat ∧
    (doesMatchPath compile cache rule path).cache.lookup rule.rulePat = some none ∧
    CacheWF compile (doesMatchPath compile cache rule path).cache ∧
    ∀ rule' path', rule'.rulePat = rule.rulePat →
      (doesMatchPath compile (doesMatchPath compile cache rule path).cache
          rule' path').result =
        strIncludes (toMatchOf rule' path') rule'.rulePat := by
  obtain ⟨hres, hwf', hsome⟩ := doesMatchPath_spec compile cache rule path hwf
  refine ⟨?_, ?_, hwf', ?_⟩
  · rw [hres]; simp [matcherTest, hbad]
  · rcases Option.isSome_iff_exists.mp hsome with ⟨e, he⟩
    have hce := hwf' _ _ he
    rw [he, hce, hbad]
  · intro rule' path' hpat
    obtain ⟨hres', _, _⟩ := doesMatchPath_spec compile _ rule' path' hwf'
    rw [hres']
    simp [matcherTest, hpat, hbad]

theorem invalid_pattern_falls_back_witness :
    (doesMatchPath (fun _ => none) []
        ⟨"IbStar", none, "td", RuleFor.everything, false, 0⟩ "a/td.md").result =
      strIncludes (toMatchOf ⟨"IbStar", none, "td", RuleFor.everything, false, 0⟩ "a/td.md")
        "td" ∧
    (doesMatchPath (fun _ => none) []
        ⟨"IbStar", none, "td", RuleFor.everything, false, 0⟩ "a/td.md").cache.lookup "td" =
      some none := by
  have h := invalid_pattern_falls_back_to_substring (fun _ => none) []
    ⟨"IbStar", none, "td", RuleFor.everything, false, 0⟩ "a/td.md" rfl
    (cacheWF_nil _)
  exact ⟨h.1, h.2.1⟩

/-! ## C5 -/

/-- C5: the pattern cache compiles each distinct pattern string at most
once per process: a call whose pattern string is cached performs no
compile and leaves the cache unchanged; the first call with an uncached
pattern string compiles once and creates the entry; a second rule with
identical pattern text reuses that entry without compiling; and across
any sequence of calls, the compile step runs at most once per pattern
string. -/
theorem regexCache_compiles_each_pattern_at_most_once :
    (∀ (compile : String → Option Matcher) (cache : RegexCache)
        (r : CustomRule) (p : String),
      (cache.lookup r.rulePat).isSome →
        (doesMatchPath compile cache r p).compiles = 0 ∧
        (doesMatchPath compile cache r p).cache = cache) ∧
    (∀ (compile : String → Option Matcher) (cache : RegexCache)
        (r : CustomRule) (p : String),
      cache.lookup r.rulePat = none →
        (doesMatchPath compile cache r p).compiles = 1 ∧
        (((doesMatchPath compile cache r p).cache).lookup r.rulePat).isSome) ∧
    (∀ (compile : String → Option Matcher) (cache : RegexCache)
        (r₁ r₂ : CustomRule) (p₁ p₂ : String),
      r₂.rulePat = r₁.rulePat →
        (doesMatchPath compile (doesMatchPath compile cache r₁ p₁).cache
            r₂ p₂).compiles = 0 ∧
        (doesMatchPath compile (doesMatchPath compile cache r₁ p₁).cache
            r₂ p₂).cache = (doesMatchPath compile cache r₁ p₁).cache) ∧
    (∀ (compile : String → Option Matcher) (pat : String)
        (cache : RegexCache) (calls : List (CustomRule × String)),
      runMatchesCount compile pat cache calls ≤ 1) := by
  refine ⟨?_, ?_, ?_, ?_⟩
  · intro compile cache r p h
    exact doesMatchPath_hit compile cache r p h
  · intro compile cache r p h
    exact ⟨doesMatchPath_miss compile cache r p h,
      doesMatchPath_lookup_self compile cache r p⟩
  · intro compile cache r₁ r₂ p₁ p₂ hpat
    have hself := doesMatchPath_lookup_self compile cache r₁ p₁
    exact doesMatchPath_hit compile _ r₂ p₂ (by rw [hpat]; exact hself)
  · intro compile pat cache calls
    induction calls generalizing cache with
    | nil => simp [runMatchesCount]
    | cons call rest ih =>
      obtain ⟨r, p⟩ := call
      unfold runMatchesCount
      by_cases hr : r.rulePat = pat
      · by_cases hc : (cache.lookup r.rulePat).isSome
        · have hz := (doesMatchPath_hit compile cache r p hc).1
          have htail := runMatchesCount_zero_of_cached compile pat rest
            (doesMatchPath compile cache r p).cache
            (doesMatchPath_preserves_lookup compile cache r p pat (hr ▸ hc))
          simp [hr, hz, htail]
        · have h1 := doesMatchPath_miss compile cache r p
            (Option.not_isSome_iff_eq_none.mp hc)
          have htail := runMatchesCount_zero_of_cached compile pat rest
            (doesMatchPath compile cache r p).cache
            (hr ▸ doesMatchPath_lookup_self compile cache r p)
          simp [hr, h1, htail]
      · simp only [hr, if_false]
        simpa using ih (doesMatchPath compile cache r p).cache

theorem regexCache_compiles_once_witness :
    (doesMatchPath (fun _ => none)
        [("td", none)] ⟨"IbStar", none, "td", RuleFor.everything, false, 0⟩
        "a/td.md").compiles = 0 ∧
    (doesMatchPath (fun _ => none)
        [("td", none)] ⟨"IbStar", none, "td", RuleFor.everything, false, 0⟩
        "a/td.md").cache = [("td", none)] :=
  regexCache_compiles_each_pattern_at_most_once.1 (fun _ => none) [("td", none)]
    ⟨"IbStar", none, "td", RuleFor.everything, false, 0⟩ "a/td.md" (by decide)

/-! ## C6 -/

/-- C6: `isApplicable` is true iff the vault lookup succeeds (a failed
lookup is false), the rule's `for` field matches the entry's type
(everything, or files with a file, or folders with a folder), and the
pattern test holds on the comparison subject — the full path when
`useFilePath` is set, otherwise the final path segment. -/
theorem isApplicable_iff (vault : String → Option CustomRuleFileType)
    (compile : String → Option Matcher) (cache : RegexCache)
    (rule : CustomRule) (path : String) (hwf : CacheWF compile cache) :
    ((isApplicable vault compile cache rule path).1 = true ↔
      ∃ ft, vault path = some ft ∧ doesMatchFileType rule ft = true ∧
        matcherTest compile rule.rulePat
          (if rule.useFilePath then path else lastSegment path) = true) ∧
    (∀ (r : CustomRule) (ft : CustomRuleFileType),
      doesMatchFileType r ft = true ↔
        (r.forType = RuleFor.everything ∨
          (r.forType = RuleFor.files ∧ ft = CustomRuleFileType.file) ∨
          (r.forType = RuleFor.folders ∧ ft = CustomRuleFileType.folder))) := by
  constructor
  · unfold isApplicable
    cases hv : vault path with
    | none => simp
    | some ft =>
      by_cases hft : doesMatchFileType rule ft = true
      · obtain ⟨hres, _, _⟩ := doesMatchPath_spec compile cache rule path hwf
        simp [hft, hres, toMatchOf]
      · simp [hft]
  · intro r ft
    cases hr : r.forType <;> cases ft <;> simp [doesMatchFileType, hr]

theorem isApplicable_iff_witness :
    ((isApplicable (fun _ => some CustomRuleFileType.file) (fun _ => none) []
        ⟨"IbStar", none, "td", RuleFor.files, false, 0⟩ "a/td.md").1 = true ↔
      ∃ ft, (fun (_ : String) => some CustomRuleFileType.file) "a/td.md" = some ft ∧
        doesMatchFileType ⟨"IbStar", none, "td", RuleFor.files, false, 0⟩ ft = true ∧
        matcherTest (fun _ => none) "td"
          (if (false : Bool) then "a/td.md" else lastSegment "a/td.md") = true) :=
  (isApplicable_iff (fun _ => some CustomRuleFileType.file) (fun _ => none) []
    ⟨"IbStar", none, "td", RuleFor.files, false, 0⟩ "a/td.md" (cacheWF_nil _)).1

/-! ## C10 -/

/-- C10: when the computed style has no `--nav-item-size` property,
`getPropertyValue` returns the empty string (never null), so the
`?? '16'` fallback never applies: `getNavItemSize` returns and caches
`parseFloat('')`, i.e. `NaN`, rather than the default 16, and every
subsequent call returns the cached `NaN` (regardless of style) until
the cache is invalidated. -/
theorem getNavItemSize_caches_nan_when_property_missing
    (style : String → Option String) (h : style "--nav-item-size" = none) :
    getPropertyValue style "--nav-item-size" = "" ∧
    nullishCoalesce (some (getPropertyValue style "--nav-item-size")) "16" = "" ∧
    getNavItemSize style none = (JSNum.nan, some JSNum.nan) ∧
    (∀ style', getNavItemSize style' (some JSNum.nan) =
      (JSNum.nan, some JSNum.nan)) ∧
    jsParseFloat "16" = JSNum.num 16 0 := by
  have h1 : getPropertyValue style "--nav-item-size" = "" := by
    simp [getPropertyValue, h]
  have h2 : nullishCoalesce (some (getPropertyValue style "--nav-item-size")) "16" = "" := by
    simp [nullishCoalesce, h1]
  refine ⟨h1, h2, ?_, ?_, ?_⟩
  · show (jsParseFloat (nullishCoalesce
      (some (getPropertyValue style "--nav-item-size")) "16"), _) = _
    rw [h2]
    have : jsParseFloat "" = JSNum.nan := by decide
    simp [this]
  · intro style'
    rfl
  · decide

/-! ## C1 -/

/-- Setting an Icon Assignment Cache entry makes it the resolved one. -/
theorem iconCacheSet_lookup_self (m : IconCacheMap) (p : String) (e : IconCacheEntry) :
    (iconCacheSet m p e).lookup p = some e := by
  simp [iconCacheSet, List.lookup]

/-- C1: `add` returns `false` with no side effect (no cache write, no
render, caches and container untouched) when the container already
carries an icon node or the path already resolves to an icon; after an
`add` that returned `true`, calling `add` again for the same rule and
path returns `false` and changes nothing, so the assignment happens
exactly once; and `add` can only have assigned (returned `true`) when
the path had no icon assignment of any kind. -/
theorem add_assigns_at_most_once (compile : String → Option Matcher)
    (st : PluginState) (rule : CustomRule) (filePath : String)
    (container : Option Container) :
    (((container.map doesElementHasIconNode).getD false = true ∨
        (getIconNameFromPath st filePath).isSome = true) →
      add compile st rule filePath container = (false, st, container)) ∧
    (∀ st' c', add compile st rule filePath container = (true, st', c') →
      add compile st' rule filePath c' = (false, st', c') ∧
      getIconNameFromPath st filePath = none) := by
  constructor
  · intro h
    unfold add
    rcases h with h | h
    · simp [h]
    · cases hcond : (container.map doesElementHasIconNode).getD false with
      | true => simp
      | false =>
        rcases Option.isSome_iff_exists.mp h with ⟨n, hn⟩
        simp [hn]
  · intro st' c' h
    unfold add at h
    cases hcond : (container.map doesElementHasIconNode).getD false with
    | true => simp [hcond] at h
    | false =>
      rw [hcond] at h
      cases hn : getIconNameFromPath st filePath with
      | some n => simp [hn] at h
      | none =>
        rw [hn] at h
        simp only [Bool.false_eq_true, if_false] at h
        rcases hip : isApplicable st.vault compile st.regexCache rule filePath with ⟨dm, ca⟩
        rw [hip] at h
        cases dm with
        | false => simp at h
        | true =>
          simp only [if_true] at h
          obtain ⟨hst', hc'⟩ : PluginState.mk
                (iconCacheSet st.iconCache filePath ⟨rule.icon, true⟩)
                ca st.vault = st' ∧
              createIconNode container = c' := by
            simpa using h
          refine ⟨?_, rfl⟩
          subst hst'
          subst hc'
          cases container with
          | some c =>
            unfold add
            simp [createIconNode, doesElementHasIconNode]
          | none =>
            unfold add
            simp [createIconNode, getIconNameFromPath, iconCacheSet_lookup_self]

theorem add_assigns_at_most_once_witness :
    add (fun _ => none)
      ⟨[("a/td.md", ⟨"IbStar", true⟩)], [("td", none)],
        fun _ => some CustomRuleFileType.file⟩
      ⟨"IbStar", none, "td", RuleFor.everything, false, 0⟩ "a/td.md" none =
      (false,
        ⟨[("a/td.md", ⟨"IbStar", true⟩)], [("td", none)],
          fun _ => some CustomRuleFileType.file⟩,
        none) ∧
    getIconNameFromPath
      ⟨[], [], fun _ => some CustomRuleFileType.file⟩ "a/td.md" = none :=
  (add_assigns_at_most_once (fun _ => none)
    ⟨[], [], fun _ => some CustomRuleFileType.file⟩
    ⟨"IbStar", none, "td", RuleFor.everything, false, 0⟩ "a/td.md" none).2
    ⟨[("a/td.md", ⟨"IbStar", true⟩)], [("td", none)],
      fun _ => some CustomRuleFileType.file⟩
    none rfl

/-! ## C9 -/

/-- Inserting a rule yields a permutation of consing it. -/
theorem insertRule_perm (r : CustomRule) (l : List CustomRule) :
    List.Perm (insertRule r l) (r :: l) := by
  induction l with
  | nil => exact List.Perm.refl _
  | cons x xs ih =>
    unfold insertRule
    by_cases hx : r.order < x.order
    · rw [if_pos hx]
    · rw [if_neg hx]
      exact (ih.cons x).trans (List.Perm.swap r x xs)

/-- Inserting into a sorted list keeps it sorted. -/
theorem insertRule_sorted (r : CustomRule) (l : List CustomRule)
    (h : l.Pairwise (fun a b => a.order ≤ b.order)) :
    (insertRule r l).Pairwise (fun a b => a.order ≤ b.order) := by
  induction l with
  | nil => simp [insertRule]
  | cons x xs ih =>
    rcases List.pairwise_cons.mp h with ⟨hx, hxs⟩
    unfold insertRule
    by_cases hlt : r.order < x.order
    · rw [if_pos hlt]
      refine List.pairwise_cons.mpr ⟨?_, h⟩
      intro b hb
      rcases List.mem_cons.mp hb with rfl | hb'
      · omega
      · have := hx b hb'
        omega
    · rw [if_neg hlt]
      refine List.pairwise_cons.mpr ⟨?_, ih hxs⟩
      intro b hb
      rcases List.mem_cons.mp ((insertRule_perm r xs).mem_iff.mp hb) with rfl | hb'
      · omega
      · exact hx b hb'

/-- Stability of one insertion on a sorted list: elements with any
given `order` value keep their relative position, the inserted rule
going last among its ties. -/
theorem insertRule_filter (r : CustomRule) (k : Int) (l : List CustomRule)
    (h : l.Pairwise (fun a b => a.order ≤ b.order)) :
    (insertRule r l).filter (fun x => x.order = k) =
      l.filter (fun x => x.order = k) ++ (if r.order = k then [r] else []) := by
  induction l with
  | nil =>
    by_cases hrk : r.order = k <;> simp [insertRule, hrk]
  | cons x xs ih =>
    rcases List.pairwise_cons.mp h with ⟨hx, hxs⟩
    unfold insertRule
    by_cases hlt : r.order < x.order
    · rw [if_pos hlt]
      by_cases hrk : r.order = k
      · have hxk : ¬(x.order = k) := by omega
        have hnil : (x :: xs).filter (fun y => decide (y.order = k)) = [] := by
          rw [List.filter_eq_nil_iff]
          intro a ha
          rcases List.mem_cons.mp ha with rfl | ha'
          · simpa using hxk
          · have := hx a ha'
            simp only [decide_eq_true_eq]
            omega
        simp [List.filter_cons, hrk, hnil]
      · rw [List.filter_cons]
        simp [hrk]
    · rw [if_neg hlt]
      rw [List.filter_cons, List.filter_cons]
      by_cases hxk : x.order = k
      · simp [hxk, ih hxs]
      · simp [hxk, ih hxs]

/-- Folding insertions keeps sortedness. -/
theorem jsSort_fold_sorted (rs : List CustomRule) :
    ∀ acc : List CustomRule, acc.Pairwise (fun a b => a.order ≤ b.order) →
      (rs.foldl (fun a r => insertRule r a) acc).Pairwise
        (fun a b => a.order ≤ b.order) := by
  induction rs with
  | nil => intro acc h; exact h
  | cons r rest ih =>
    intro acc h
    exact ih _ (insertRule_sorted r acc h)

/-- Folding insertions permutes the concatenation. -/
theorem jsSort_fold_perm (rs : List CustomRule) :
    ∀ acc : List CustomRule,
      List.Perm (rs.foldl (fun a r => insertRule r a) acc) (acc ++ rs) := by
  induction rs with
  | nil => intro acc; simp
  | cons r rest ih =>
    intro acc
    have h1 := ih (insertRule r acc)
    have h2 : List.Perm (insertRule r acc ++ rest) ((r :: acc) ++ rest) :=
      (insertRule_perm r acc).append_right rest
    have h3 : List.Perm (acc ++ r :: rest) (r :: (acc ++ rest)) := List.perm_middle
    exact (h1.trans (h2.trans (List.Perm.refl _))).trans h3.symm

/-- Folding insertions is stable per `order` value. -/
theorem jsSort_fold_filter (k : Int) (rs : List CustomRule) :
    ∀ acc : List CustomRule, acc.Pairwise (fun a b => a.order ≤ b.order) →
      (rs.foldl (fun a r => insertRule r a) acc).filter (fun x => x.order = k) =
        acc.filter (fun x => x.order = k) ++ rs.filter (fun x => x.order = k) := by
  induction rs with
  | nil => intro acc _; simp
  | cons r rest ih =>
    intro acc h
    have step := ih (insertRule r acc) (insertRule_sorted r acc h)
    rw [List.foldl_cons, step, insertRule_filter r k acc h, List.filter_cons]
    by_cases hrk : r.order = k
    · simp [hrk]
    · simp [hrk]

/-- C9 (amended): `getSortedRules` returns the rules ordered ascending
by `order` with ties kept in original order (stable: for every order
value the tied rules appear exactly as in the input), and the result is
a permutation of the input — but JS `Array.prototype.sort` sorts the
underlying settings array in place, so after the call the settings
array holds the sorted order rather than being left unmodified. -/
theorem getSortedRules_sorts_and_mutates (s : Settings) :
    ((getSortedRules s).1).Pairwise (fun a b => a.order ≤ b.order) ∧
    List.Perm (getSortedRules s).1 s.rules ∧
    (∀ k : Int, ((getSortedRules s).1).filter (fun r => r.order = k) =
      s.rules.filter (fun r => r.order = k)) ∧
    (getSortedRules s).2.rules = (getSortedRules s).1 := by
  refine ⟨?_, ?_, ?_, rfl⟩
  · exact jsSort_fold_sorted s.rules [] (List.Pairwise.nil)
  · have := jsSort_fold_perm s.rules []
    simpa [jsSortRules, getSortedRules] using this
  · intro k
    have := jsSort_fold_filter k s.rules [] (List.Pairwise.nil)
    simpa [jsSortRules, getSortedRules] using this

/-- C9 counterexample: the settings rules array is NOT left unmodified
by `getSortedRules` — with two rules whose `order` fields are out of
order, the underlying array differs after the call. -/
theorem getSortedRules_mutates_counterexample :
    (getSortedRules ⟨[⟨"IbA", none, "a", RuleFor.everything, false, 2⟩,
        ⟨"IbB", none, "b", RuleFor.everything, false, 1⟩]⟩).2.rules ≠
      [⟨"IbA", none, "a", RuleFor.everything, false, 2⟩,
        ⟨"IbB", none, "b", RuleFor.everything, false, 1⟩] := by
  decide

/-! ## C7 and C8 -/

/-- C7: the single-watcher claim fails on the code.  `register()` only
subscribes a one-shot `allIconsLoaded` handler, so after two
`register()` calls before the signal the guard disconnects nothing
(`this.observer` is still null) and the emission runs both queued
handlers, attaching two observers to the region with the first one's
reference overwritten and never disconnected.  In contrast, when the
signal fires between the two registrations, the guard does disconnect
the existing observer and exactly one watcher remains. -/
theorem outline_double_register_two_watchers :
    ((runEvents (initialOutline true)
      [OutlineEv.register, OutlineEv.register,
        OutlineEv.allIconsLoaded []]).active).length = 2 ∧
    ((runEvents (initialOutline true)
      [OutlineEv.register, OutlineEv.allIconsLoaded [],
        OutlineEv.register, OutlineEv.allIconsLoaded []]).active).length = 1 := by
  decide

/-- C8: the mutation callback checks enablement before processing any
notification of its batch: with the feature disabled it disconnects the
observer and discards the entire batch (no added node processed), the
region is left with no attached observer, and any subsequent mutation
batch produces no further processing. -/
theorem outline_disabled_discards_batch (st : OutlineState)
    (muts : List MutationRec) (hdis : st.enabled = false)
    (hinv : OutlineInv st) :
    outlineCallback st muts = (disconnectObserver st, []) ∧
    (disconnectObserver st).observer = none ∧
    (disconnectObserver st).active = [] ∧
    (∀ muts', stepEv (disconnectObserver st) (OutlineEv.mutate muts') =
      (disconnectObserver st, [])) := by
  obtain ⟨hnone, hsome⟩ := hinv
  have hactive : (disconnectObserver st).active = [] := by
    unfold disconnectObserver
    cases ho : st.observer with
    | none => simpa using hnone ho
    | some j => rcases (hsome j ho).1 with ha | ha <;> simp [ha]
  have hobs : (disconnectObserver st).observer = none := by
    unfold disconnectObserver
    cases st.observer <;> rfl
  refine ⟨?_, hobs, hactive, ?_⟩
  · unfold outlineCallback
    simp [hdis]
  · intro muts'
    unfold stepEv
    simp [hactive]

theorem outline_disabled_discards_witness :
    outlineCallback ⟨false, true, some 0, [0], 0, 1⟩
        [⟨true, [⟨true, true, some 5, []⟩]⟩] =
      (disconnectObserver ⟨false, true, some 0, [0], 0, 1⟩, []) ∧
    (disconnectObserver ⟨false, true, some 0, [0], 0, 1⟩).active = [] :=
  have h := outline_disabled_discards_batch ⟨false, true, some 0, [0], 0, 1⟩
    [⟨true, [⟨true, true, some 5, []⟩]⟩] rfl
    ⟨fun h => by simp at h,
      fun i hi => by
        simp only [Option.some.injEq] at hi
        subst hi
        exact ⟨Or.inr rfl, rfl⟩⟩
  ⟨h.1, h.2.2.1⟩

/-! ## C2 -/

/-- A removable node has an owning path. -/
theorem shouldRemove_nodePath (vault : String → Option CustomRuleFileType)
    (compile : String → Option Matcher) (rule : CustomRule) (n : IconNode)
    (h : shouldRemove vault compile rule n = true) : (nodePath n).isSome := by
  unfold shouldRemove at h
  unfold nodePath
  cases hp : n.parent with
  | none => simp only [hp] at h; simp at h
  | some p =>
    simp only [hp] at h
    cases hd : p.dataPath with
    | none => simp only [hd] at h; simp at h
    | some dp => simp [hp, hd]

/-- One removal-loop iteration computes exactly the removal predicate,
reports the owning path of a removed node, and keeps the pattern cache
consistent. -/
theorem removeStep_spec (vault : String → Option CustomRuleFileType)
    (compile : String → Option Matcher) (rule : CustomRule)
    (cache : RegexCache) (n : IconNode) (hwf : CacheWF compile cache)
    (hicon : n.iconAttr = rule.icon) :
    (removeStep vault compile rule cache n).1 = shouldRemove vault compile rule n ∧
    (removeStep vault compile rule cache n).2.1 =
      (if shouldRemove vault compile rule n = true then nodePath n else none) ∧
    CacheWF compile (removeStep vault compile rule cache n).2.2 := by
  unfold removeStep shouldRemove nodePath
  cases hp : n.parent with
  | none => simp [hp, hwf]
  | some p =>
    cases hd : p.dataPath with
    | none => simp [hp, hd, hwf]
    | some dp =>
      by_cases hemp : dp.isEmpty
      · simp [hp, hd, hemp, hwf, hicon]
      · cases hv : vault dp with
        | none => simp [hp, hd, hemp, hv, hwf, hicon]
        | some ft =>
          obtain ⟨hres, hwf', _⟩ := doesMatchPath_spec compile cache rule dp hwf
          by_cases hm : matcherTest compile rule.rulePat (toMatchOf rule dp) = true
          · by_cases hft : doesMatchFileType rule ft = true
            · simp [hp, hd, hemp, hv, hres, hm, hft, hwf', hicon]
            · simp [hp, hd, hemp, hv, hres, hm, hft, hwf', hicon]
          · simp [hp, hd, hemp, hv, hres, hm, hwf', hicon]

/-- C2: `removeFromAllFiles` removes exactly the rendered icon nodes
whose tagged icon attribute equals the rule's icon AND whose owning
path still matches the rule under the current type and path rules,
invalidating the Icon Assignment Cache entry for each such path; a
missing parent element, missing `data-path`, or missing vault entry
makes that node a no-op, and a node whose path no longer matches is
never removed, while processing continues over the remaining nodes. -/
theorem removeFromAllFiles_removes_exactly (vault : String → Option CustomRuleFileType)
    (compile : String → Option Matcher) (rule : CustomRule)
    (nodes : List IconNode) :
    ∀ (cache : RegexCache) (icons : IconCacheMap), CacheWF compile cache →
      (removeFromAllFiles vault compile rule cache icons nodes).1 =
        nodes.map (shouldRemove vault compile rule) ∧
      (removeFromAllFiles vault compile rule cache icons nodes).2.2 =
        (removedPaths vault compile rule nodes).foldl iconCacheInvalidate icons ∧
      CacheWF compile (removeFromAllFiles vault compile rule cache icons nodes).2.1 := by
  induction nodes with
  | nil => intro cache icons hwf; exact ⟨rfl, rfl, hwf⟩
  | cons n ns ih =>
    intro cache icons hwf
    by_cases hicon : n.iconAttr = rule.icon
    · obtain ⟨hr1, hr2, hr3⟩ := removeStep_spec vault compile rule cache n hwf hicon
      rcases hstep : removeStep vault compile rule cache n with ⟨removed, invalidated, cache1⟩
      rw [hstep] at hr1 hr2 hr3
      simp only at hr1 hr2 hr3
      unfold removeFromAllFiles
      rw [if_pos hicon, hstep]
      simp only []
      by_cases hsr : shouldRemove vault compile rule n = true
      · subst hr1
        have hnp := shouldRemove_nodePath vault compile rule n hsr
        rcases Option.isSome_iff_exists.mp hnp with ⟨dp, hdp⟩
        rw [hsr] at hr2 ⊢
        rw [if_pos rfl, hdp] at hr2
        subst hr2
        obtain ⟨h1, h2, h3⟩ :=
          ih cache1 (iconCacheInvalidate icons dp) hr3
        rcases hrec : removeFromAllFiles vault compile rule cache1
            (iconCacheInvalidate icons dp) ns with ⟨flags, cache2, icons2⟩
        rw [hrec] at h1 h2 h3
        simp only at h1 h2 h3
        refine ⟨?_, ?_, h3⟩
        · simp [h1, hsr]
        · rw [h2]
          unfold removedPaths
          rw [List.filter_cons, if_pos (by simp [hsr])]
          rw [List.filterMap_cons, hdp]
          rfl
      · have hsrf : shouldRemove vault compile rule n = false :=
          Bool.not_eq_true _ ▸ (by simpa using hsr)
        rw [hsrf] at hr1 hr2
        subst hr1
        simp only [Bool.false_eq_true, if_false] at hr2
        subst hr2
        obtain ⟨h1, h2, h3⟩ := ih cache1 icons hr3
        rcases hrec : removeFromAllFiles vault compile rule cache1 icons ns with
          ⟨flags, cache2, icons2⟩
        rw [hrec] at h1 h2 h3
        simp only at h1 h2 h3
        refine ⟨?_, ?_, h3⟩
        · simp [h1, hsrf]
        · rw [h2]
          unfold removedPaths
          rw [List.filter_cons, if_neg (by simp [hsrf])]
    · have hsrf : shouldRemove vault compile rule n = false := by
        simp [shouldRemove, hicon]
      unfold removeFromAllFiles
      rw [if_neg hicon]
      obtain ⟨h1, h2, h3⟩ := ih cache icons hwf
      rcases hrec : removeFromAllFiles vault compile rule cache icons ns with
        ⟨flags, cache2, icons2⟩
      rw [hrec] at h1 h2 h3
      simp only at h1 h2 h3
      refine ⟨?_, ?_, h3⟩
      · simp [h1, hsrf]
      · rw [h2]
        unfold removedPaths
        rw [List.filter_cons, if_neg (by simp [hsrf])]

theorem removeFromAllFiles_witness :
    (removeFromAllFiles (fun _ => some CustomRuleFileType.file) (fun _ => none)
        ⟨"IbStar", none, "td", RuleFor.everything, false, 0⟩ []
        [("a/td.md", ⟨"IbStar", true⟩), ("b/x.md", ⟨"IbStar", true⟩)]
        [⟨"IbStar", some ⟨some "a/td.md"⟩⟩, ⟨"IbStar", some ⟨some "b/x.md"⟩⟩,
          ⟨"IbStar", none⟩, ⟨"IbOther", some ⟨some "a/td.md"⟩⟩]).1 =
      [⟨"IbStar", some ⟨some "a/td.md"⟩⟩, ⟨"IbStar", some ⟨some "b/x.md"⟩⟩,
          ⟨"IbStar", none⟩, ⟨"IbOther", some ⟨some "a/td.md"⟩⟩].map
        (shouldRemove (fun _ => some CustomRuleFileType.file) (fun _ => none)
          ⟨"IbStar", none, "td", RuleFor.everything, false, 0⟩) ∧
    (removeFromAllFiles (fun _ => some CustomRuleFileType.file) (fun _ => none)
        ⟨"IbStar", none, "td", RuleFor.everything, false, 0⟩ []
        [("a/td.md", ⟨"IbStar", true⟩), ("b/x.md", ⟨"IbStar", true⟩)]
        [⟨"IbStar", some ⟨some "a/td.md"⟩⟩, ⟨"IbStar", some ⟨some "b/x.md"⟩⟩,
          ⟨"IbStar", none⟩, ⟨"IbOther", some ⟨some "a/td.md"⟩⟩]).2.2 =
      (removedPaths (fun _ => some CustomRuleFileType.file) (fun _ => none)
          ⟨"IbStar", none, "td", RuleFor.everything, false, 0⟩
          [⟨"IbStar", some ⟨some "a/td.md"⟩⟩, ⟨"IbStar", some ⟨some "b/x.md"⟩⟩,
            ⟨"IbStar", none⟩, ⟨"IbOther", some ⟨some "a/td.md"⟩⟩]).foldl
        iconCacheInvalidate
        [("a/td.md", ⟨"IbStar", true⟩), ("b/x.md", ⟨"IbStar", true⟩)] :=
  have h := removeFromAllFiles_removes_exactly
    (fun _ => some CustomRuleFileType.file) (fun _ => none)
    ⟨"IbStar", none, "td", RuleFor.everything, false, 0⟩
    [⟨"IbStar", some ⟨some "a/td.md"⟩⟩, ⟨"IbStar", some ⟨some "b/x.md"⟩⟩,
      ⟨"IbStar", none⟩, ⟨"IbOther", some ⟨some "a/td.md"⟩⟩]
    [] [("a/td.md", ⟨"IbStar", true⟩), ("b/x.md", ⟨"IbStar", true⟩)]
    (cacheWF_nil _)
  ⟨h.1, h.2.1⟩

/-! ## C3 -/

theorem length_spliceChars (s : List Char) (x y : Nat) :
    (spliceChars s x y).length = min x s.length + (s.length - y) := by
  simp [spliceChars]

/-- Removing the span `[x, y)` from `u ++ (v ++ w)` with `x = |u|` and
`y = |u| + |v|` cuts out exactly `v`. -/
theorem splice_mid (u v w : List Char) (x y : Nat)
    (hx : x = u.length) (hy : y = u.length + v.length) :
    spliceChars (u ++ (v ++ w)) x y = u ++ w := by
  subst hx
  subst hy
  unfold spliceChars
  rw [List.take_left]
  rw [show u ++ (v ++ w) = (u ++ v) ++ w from (List.append_assoc u v w).symm]
  rw [List.drop_left' (by simp)]

/-- Span-removal commutation over an explicit five-way decomposition:
removing the later span then the earlier one equals removing the
earlier span then the later one at indices shifted down by the earlier
span's length. -/
theorem spliceChars_comm_decomp (t t₁ t₂ t₃ t₄ t₅ : List Char) (a la b lb : Nat)
    (hdecomp : t = t₁ ++ (t₂ ++ (t₃ ++ (t₄ ++ t₅))))
    (e1 : t₁.length = a) (e2 : t₂.length = la)
    (e3 : t₃.length = b - (a + la)) (e4 : t₄.length = lb)
    (hab : a + la ≤ b) :
    spliceChars (spliceChars t b (b + lb)) a (a + la) =
      spliceChars (spliceChars t a (a + la)) (b - la) (b - la + lb) := by
  subst hdecomp
  have hL1 : spliceChars (t₁ ++ (t₂ ++ (t₃ ++ (t₄ ++ t₅)))) b (b + lb) =
      (t₁ ++ (t₂ ++ t₃)) ++ t₅ := by
    rw [show t₁ ++ (t₂ ++ (t₃ ++ (t₄ ++ t₅))) = (t₁ ++ (t₂ ++ t₃)) ++ (t₄ ++ t₅) from
      by simp]
    exact splice_mid _ _ _ _ _
      (by simp only [List.length_append]; omega)
      (by simp only [List.length_append]; omega)
  have hL2 : spliceChars ((t₁ ++ (t₂ ++ t₃)) ++ t₅) a (a + la) = t₁ ++ (t₃ ++ t₅) := by
    rw [show (t₁ ++ (t₂ ++ t₃)) ++ t₅ = t₁ ++ (t₂ ++ (t₃ ++ t₅)) from by simp]
    exact splice_mid t₁ t₂ (t₃ ++ t₅) a (a + la) (by omega) (by omega)
  have hR1 : spliceChars (t₁ ++ (t₂ ++ (t₃ ++ (t₄ ++ t₅)))) a (a + la) =
      t₁ ++ (t₃ ++ (t₄ ++ t₅)) :=
    splice_mid t₁ t₂ (t₃ ++ (t₄ ++ t₅)) a (a + la) (by omega) (by omega)
  have hR2 : spliceChars (t₁ ++ (t₃ ++ (t₄ ++ t₅))) (b - la) (b - la + lb) =
      (t₁ ++ t₃) ++ t₅ := by
    rw [show t₁ ++ (t₃ ++ (t₄ ++ t₅)) = (t₁ ++ t₃) ++ (t₄ ++ t₅) from by simp]
    exact splice_mid (t₁ ++ t₃) t₄ t₅ (b - la) (b - la + lb)
      (by simp only [List.length_append]; omega)
      (by simp only [List.length_append]; omega)
  rw [hL1, hL2, hR1, hR2]
  simp

/-- Span-removal commutation for in-range spans of any list. -/
theorem spliceChars_comm (t : List Char) (a la b lb : Nat)
    (hab : a + la ≤ b) (hbt : b + lb ≤ t.length) :
    spliceChars (spliceChars t b (b + lb)) a (a + la) =
      spliceChars (spliceChars t a (a + la)) (b - la) (b - la + lb) := by
  have hd2 : t.drop a = (t.drop a).take la ++ t.drop (a + la) := by
    have h := List.take_append_drop la (t.drop a)
    rw [List.drop_drop] at h
    exact h.symm
  have hd3 : t.drop (a + la) =
      (t.drop (a + la)).take (b - (a + la)) ++ t.drop b := by
    have h := List.take_append_drop (b - (a + la)) (t.drop (a + la))
    rw [List.drop_drop] at h
    rw [show a + la + (b - (a + la)) = b from by omega] at h
    exact h.symm
  have hd4 : t.drop b = (t.drop b).take lb ++ t.drop (b + lb) := by
    have h := List.take_append_drop lb (t.drop b)
    rw [List.drop_drop] at h
    exact h.symm
  have hdecomp : t = t.take a ++ ((t.drop a).take la ++
      ((t.drop (a + la)).take (b - (a + la)) ++
        ((t.drop b).take lb ++ t.drop (b + lb)))) := by
    calc t = t.take a ++ t.drop a := (List.take_append_drop a t).symm
      _ = t.take a ++ ((t.drop a).take la ++ t.drop (a + la)) :=
        congrArg (fun x => t.take a ++ x) hd2
      _ = t.take a ++ ((t.drop a).take la ++
          ((t.drop (a + la)).take (b - (a + la)) ++ t.drop b)) :=
        congrArg (fun x => t.take a ++ ((t.drop a).take la ++ x)) hd3
      _ = t.take a ++ ((t.drop a).take la ++
          ((t.drop (a + la)).take (b - (a + la)) ++
            ((t.drop b).take lb ++ t.drop (b + lb)))) :=
        congrArg (fun x => t.take a ++ ((t.drop a).take la ++
          ((t.drop (a + la)).take (b - (a + la)) ++ x))) hd4
  exact spliceChars_comm_decomp t _ _ _ _ _ a la b lb hdecomp
    (by rw [List.length_take]; omega)
    (by rw [List.length_take, List.length_drop]; omega)
    (by rw [List.length_take, List.length_drop]; omega)
    (by rw [List.length_take, List.length_drop]; omega)
    hab

theorem specRemoveFrom_cons (found : ShortcodeMatch → Bool) (trimmed : Nat)
    (text : List Char) (m : ShortcodeMatch) (rest : List ShortcodeMatch) :
    specRemoveFrom found trimmed text (m :: rest) =
      if found m then
        spliceChars (specRemoveFrom found trimmed text rest)
          (m.index - trimmed) (m.index + m.text.length - trimmed)
      else specRemoveFrom found trimmed text rest := rfl

theorem processTreeItemScan_cons (getIcon : List Char → Bool) (idLen : Nat)
    (text : List Char) (trimmed : Nat) (code : ShortcodeMatch)
    (rest : List ShortcodeMatch) :
    processTreeItemScan getIcon idLen text trimmed (code :: rest) =
      if foundIcon getIcon idLen code then
        processTreeItemScan getIcon idLen
          (spliceChars text (code.index - trimmed)
            (code.index + code.text.length - trimmed))
          (trimmed + code.text.length) rest
      else processTreeItemScan getIcon idLen text trimmed rest := rfl

/-- Removals whose spans all start at or after position `q` leave at
least `q` characters. -/
theorem specRemoveFrom_length_ge (found : ShortcodeMatch → Bool)
    (ms : List ShortcodeMatch) :
    ∀ (text : List Char) (trimmed q : Nat),
      (∀ m ∈ ms, trimmed + q ≤ m.index) → q ≤ text.length →
      q ≤ (specRemoveFrom found trimmed text ms).length := by
  induction ms with
  | nil => intro text trimmed q _ h; exact h
  | cons m rest ih =>
    intro text trimmed q hq ht
    have hX := ih text trimmed q
      (fun m' hm' => hq m' (List.mem_cons_of_mem m hm')) ht
    rw [specRemoveFrom_cons]
    cases hf : found m with
    | false => simpa [hf] using hX
    | true =>
      have hqm := hq m (List.mem_cons_self m rest)
      simp only [if_true]
      rw [length_spliceChars]
      omega

/-- Removing a span lying left of every span of a removal pass
commutes with the pass, shifting the pass's offsets by the removed
length. -/
theorem spliceChars_specRemoveFrom (found : ShortcodeMatch → Bool)
    (ms : List ShortcodeMatch) :
    ∀ (text : List Char) (trimmed a la : Nat),
      ms.Pairwise (fun m m' => m.index + m.text.length ≤ m'.index) →
      (∀ m ∈ ms, trimmed + (a + la) ≤ m.index) →
      (∀ m ∈ ms, m.index + m.text.length ≤ trimmed + text.length) →
      spliceChars (specRemoveFrom found trimmed text ms) a (a + la) =
        specRemoveFrom found (trimmed + la) (spliceChars text a (a + la)) ms := by
  induction ms with
  | nil => intro text trimmed a la _ _ _; rfl
  | cons m rest ih =>
    intro text trimmed a la hpw hlow hbound
    obtain ⟨hhead, hpw_rest⟩ := List.pairwise_cons.mp hpw
    have hlow_rest : ∀ m' ∈ rest, trimmed + (a + la) ≤ m'.index :=
      fun m' hm' => hlow m' (List.mem_cons_of_mem m hm')
    have hbound_rest : ∀ m' ∈ rest, m'.index + m'.text.length ≤ trimmed + text.length :=
      fun m' hm' => hbound m' (List.mem_cons_of_mem m hm')
    have hlowm := hlow m (List.mem_cons_self m rest)
    have hboundm := hbound m (List.mem_cons_self m rest)
    rw [specRemoveFrom_cons, specRemoveFrom_cons]
    cases hf : found m with
    | false =>
      simp only [Bool.false_eq_true, if_false]
      exact ih text trimmed a la hpw_rest hlow_rest hbound_rest
    | true =>
      simp only [if_true]
      have hbt : (m.index - trimmed) + m.text.length ≤
          (specRemoveFrom found trimmed text rest).length := by
        refine specRemoveFrom_length_ge found rest text trimmed
          ((m.index - trimmed) + m.text.length) ?_ (by omega)
        intro m' hm'
        have := hhead m' hm'
        omega
      have hcomm := spliceChars_comm (specRemoveFrom found trimmed text rest)
        a la (m.index - trimmed) m.text.length (by omega) hbt
      rw [show m.index + m.text.length - trimmed =
        (m.index - trimmed) + m.text.length from by omega]
      rw [hcomm]
      rw [ih text trimmed a la hpw_rest hlow_rest hbound_rest]
      rw [Nat.sub_sub]
      rw [show m.index + m.text.length - (trimmed + la) =
        m.index - (trimmed + la) + m.text.length from by omega]

/-- The scanning loop with its running trim offset computes the same
result as removing every found span at its original-text position. -/
theorem scan_eq_specRemoveFrom (getIcon : List Char → Bool) (idLen : Nat)
    (ms : List ShortcodeMatch) :
    ∀ (text : List Char) (trimmed : Nat),
      ms.Pairwise (fun m m' => m.index + m.text.length ≤ m'.index) →
      (∀ m ∈ ms, trimmed ≤ m.index) →
      (∀ m ∈ ms, m.index + m.text.length ≤ trimmed + text.length) →
      processTreeItemScan getIcon idLen text trimmed ms =
        specRemoveFrom (foundIcon getIcon idLen) trimmed text ms := by
  induction ms with
  | nil => intro text trimmed _ _ _; rfl
  | cons code rest ih =>
    intro text trimmed hpw hlow hbound
    obtain ⟨hhead, hpw_rest⟩ := List.pairwise_cons.mp hpw
    have hlowc := hlow code (List.mem_cons_self code rest)
    have hboundc := hbound code (List.mem_cons_self code rest)
    rw [processTreeItemScan_cons, specRemoveFrom_cons]
    cases hf : foundIcon getIcon idLen code with
    | false =>
      simp only [Bool.false_eq_true, if_false]
      exact ih text trimmed hpw_rest
        (fun m hm => hlow m (List.mem_cons_of_mem code hm))
        (fun m hm => hbound m (List.mem_cons_of_mem code hm))
    | true =>
      simp only [if_true]
      have hlow' : ∀ m ∈ rest, trimmed + code.text.length ≤ m.index := by
        intro m hm
        have := hhead m hm
        omega
      have hbound' : ∀ m ∈ rest, m.index + m.text.length ≤
          (trimmed + code.text.length) +
            (spliceChars text (code.index - trimmed)
              (code.index + code.text.length - trimmed)).length := by
        intro m hm
        have h1 := hbound m (List.mem_cons_of_mem code hm)
        rw [length_spliceChars]
        omega
      rw [ih _ _ hpw_rest hlow' hbound']
      rw [show code.index + code.text.length - trimmed =
        (code.index - trimmed) + code.text.length from by omega]
      refine (spliceChars_specRemoveFrom (foundIcon getIcon idLen) rest
        text trimmed (code.index - trimmed) code.text.length hpw_rest ?_ ?_).symm
      · intro m hm
        have := hhead m hm
        omega
      · intro m hm
        exact hbound m (List.mem_cons_of_mem code hm)

/-- With trim offset zero the spec-side removal is exactly
`specRemoveMatchedTokens`. -/
theorem specRemoveFrom_zero (found : ShortcodeMatch → Bool) (text : List Char)
    (ms : List ShortcodeMatch) :
    specRemoveFrom found 0 text ms = specRemoveMatchedTokens found text ms := by
  unfold specRemoveFrom specRemoveMatchedTokens
  congr 1

/-- A pass in which no icon name resolves leaves the text untouched. -/
theorem scan_not_found (getIcon : List Char → Bool) (idLen : Nat)
    (ms : List ShortcodeMatch) :
    ∀ (text : List Char) (trimmed : Nat),
      (∀ m ∈ ms, foundIcon getIcon idLen m = false) →
      processTreeItemScan getIcon idLen text trimmed ms = text := by
  induction ms with
  | nil => intro text trimmed _; rfl
  | cons code rest ih =>
    intro text trimmed hnf
    rw [processTreeItemScan_cons]
    rw [hnf code (List.mem_cons_self code rest)]
    simp only [Bool.false_eq_true, if_false]
    exact ih text trimmed (fun m hm => hnf m (List.mem_cons_of_mem code hm))

/-- C3: over matches collected against the original label text, sorted
ascending and non-overlapping and lying inside the text, the scanning
loop — which splices each found match at its original index minus the
total length trimmed so far — produces exactly the original text with
every found token's span removed at its original position (the
reference `specRemoveMatchedTokens`); and a pass in which no icon name
resolves leaves the label unchanged, the not-found tokens contributing
nothing to the trim offset. -/
theorem label_scan_trim_offset (getIcon : List Char → Bool) (idLen : Nat)
    (text : List Char) (ms : List ShortcodeMatch)
    (hsorted : ms.Pairwise (fun m m' => m.index + m.text.length ≤ m'.index))
    (hbounds : ∀ m ∈ ms, m.index + m.text.length ≤ text.length) :
    processTreeItemScan getIcon idLen text 0 ms =
      specRemoveMatchedTokens (foundIcon getIcon idLen) text ms ∧
    ((∀ m ∈ ms, foundIcon getIcon idLen m = false) →
      processTreeItemScan getIcon idLen text 0 ms = text) := by
  constructor
  · rw [scan_eq_specRemoveFrom getIcon idLen ms text 0 hsorted
      (fun m _ => Nat.zero_le _) (by simpa using hbounds)]
    exact specRemoveFrom_zero _ text ms
  · intro hnf
    exact scan_not_found getIcon idLen ms text 0 hnf

theorem label_scan_trim_offset_witness :
    processTreeItemScan (fun n => n == "one".data || n == "two".data) 1
        "a :one: b :two: c".data 0
        [⟨":one:".data, 2⟩, ⟨":two:".data, 10⟩] =
      specRemoveMatchedTokens
        (foundIcon (fun n => n == "one".data || n == "two".data) 1)
        "a :one: b :two: c".data
        [⟨":one:".data, 2⟩, ⟨":two:".data, 10⟩] :=
  (label_scan_trim_offset (fun n => n == "one".data || n == "two".data) 1
    "a :one: b :two: c".data [⟨":one:".data, 2⟩, ⟨":two:".data, 10⟩]
    (by decide) (by decide)).1

theorem getNavItemSize_nan_witness :
    getNavItemSize (fun _ => none) none = (JSNum.nan, some JSNum.nan) ∧
    getNavItemSize (fun _ => none) (some JSNum.nan) = (JSNum.nan, some JSNum.nan) := by
  have h := getNavItemSize_caches_nan_when_property_missing (fun _ => none) rfl
  exact ⟨h.2.2.1, h.2.2.2.1 _⟩

end Iconize
